import Mathlib

/-!
Verification of the rest-smtp-sink core (src/index.js): the JSON
encode/decode boundary used for the eight opaque columns, the sqlite-backed
email table with its autoincrementing primary key, the HTTP routes, the
SMTP data-phase completion handler, and the in-process event bus.
-/

namespace RestSmtpSink

/-- Tokens of the JSON surface syntax.  The platform JSON library used by the
source (`JSON.stringify` at src/index.js:81-88, `JSON.parse` at
src/index.js:111-118) is modelled at token level: the lexer and string
escaping of the external library are abstracted, literals carry their
decoded payloads. -/
inductive Tok where
  | lbrace
  | rbrace
  | lbrack
  | rbrack
  | colon
  | comma
  | tnull
  | tbool (b : Bool)
  | tnum (n : Int)
  | tstr (s : String)
deriving DecidableEq

/-- JavaScript values crossing the JSON boundary: `undef` models the absent
(`undefined`) value, the rest are the JSON-representable shapes the spec
enumerates (null, booleans, numbers, text, sequences, mappings). -/
inductive Js where
  | undef
  | null
  | bool (b : Bool)
  | num (n : Int)
  | str (s : String)
  | arr (xs : List Js)
  | obj (ps : List (String × Js))

/-- Whether a value is the absent (`undefined`) value. -/
def Js.isUndef : Js → Bool
  | .undef => true
  | _ => false

/-- Boolean distinctness of an object's key list. -/
def nodupKeys : List String → Bool
  | [] => true
  | k :: ks => (!ks.contains k) && nodupKeys ks

mutual
/-- A value is a proper JSON value: no absent (`undefined`) part anywhere and
every mapping has distinct keys (as every JavaScript object does). -/
def isPure : Js → Bool
  | .undef => false
  | .null => true
  | .bool _ => true
  | .num _ => true
  | .str _ => true
  | .arr xs => pureList xs
  | .obj ps => purePairs ps && nodupKeys (ps.map Prod.fst)

/-- All elements of a sequence are proper JSON values. -/
def pureList : List Js → Bool
  | [] => true
  | x :: xs => isPure x && pureList xs

/-- All values of a mapping are proper JSON values. -/
def purePairs : List (String × Js) → Bool
  | [] => true
  | (_, v) :: ps => isPure v && purePairs ps
end

/-- Join token chunks with commas, as JSON serialization separates array
elements and object members. -/
def sepJoin : List (List Tok) → List Tok
  | [] => []
  | [c] => c
  | c :: c' :: cs => c ++ Tok.comma :: sepJoin (c' :: cs)

mutual
/-- Token output of `JSON.stringify` on a value (the output for the absent
value is never used on its own: `jsonToks` returns `none` there). -/
def toksOf : Js → List Tok
  | .undef => []
  | .null => [.tnull]
  | .bool b => [.tbool b]
  | .num n => [.tnum n]
  | .str s => [.tstr s]
  | .arr xs => .lbrack :: sepJoin (arrChunks xs) ++ [.rbrack]
  | .obj ps => .lbrace :: sepJoin (objChunks ps) ++ [.rbrace]

/-- Serialized chunks of array elements; an absent element serializes as
`null`, as `JSON.stringify` does inside arrays. -/
def arrChunks : List Js → List (List Tok)
  | [] => []
  | x :: xs => (if x.isUndef then [Tok.tnull] else toksOf x) :: arrChunks xs

/-- Serialized chunks of object members; a member whose value is absent is
dropped, as `JSON.stringify` does inside objects. -/
def objChunks : List (String × Js) → List (List Tok)
  | [] => []
  | (k, v) :: ps =>
    if v.isUndef then objChunks ps
    else ([Tok.tstr k, Tok.colon] ++ toksOf v) :: objChunks ps
end

/-- `JSON.stringify`: the absent value serializes to nothing (`undefined`),
every other value to its token stream. -/
def jsonToks (v : Js) : Option (List Tok) :=
  if v.isUndef then none else some (toksOf v)

/-- Tail of a serialized nonempty array, from after the first element up to
and including the closing bracket (proof-side companion of `arrChunks`). -/
def arrTailToks : List Js → List Tok
  | [] => [.rbrack]
  | x :: xs => .comma :: toksOf x ++ arrTailToks xs

/-- Tail of a serialized nonempty object, from after the first member up to
and including the closing brace (proof-side companion of `objChunks`). -/
def objTailToks : List (String × Js) → List Tok
  | [] => [.rbrace]
  | (k, v) :: ps => .comma :: .tstr k :: .colon :: toksOf v ++ objTailToks ps

/-- Insert one parsed object member, as JavaScript object construction does
during `JSON.parse`: a repeated key keeps its first position and takes the
latest value. -/
def insertPair (acc : List (String × Js)) (k : String) (v : Js) :
    List (String × Js) :=
  if acc.any (fun p => p.1 == k) then
    acc.map (fun p => if p.1 == k then (k, v) else p)
  else acc ++ [(k, v)]

/-- Build the object resulting from a parsed member list. -/
def mkObj (ps : List (String × Js)) : List (String × Js) :=
  ps.foldl (fun acc p => insertPair acc p.1 p.2) []

/-- One fuel level of the JSON parser: a parser for values, for array tails,
for single members and for object tails. -/
structure Parsers where
  pv : List Tok → Option (Js × List Tok)
  pa : List Tok → Option (List Js × List Tok)
  pm : List Tok → Option ((String × Js) × List Tok)
  po : List Tok → Option (List (String × Js) × List Tok)

/-- The parser at one more level of fuel, given the parser at the previous
level. -/
def parseStep (p : Parsers) : Parsers where
  pv ts :=
    match ts with
    | .tnull :: ts => some (.null, ts)
    | .tbool b :: ts => some (.bool b, ts)
    | .tnum n :: ts => some (.num n, ts)
    | .tstr s :: ts => some (.str s, ts)
    | .lbrack :: .rbrack :: ts => some (.arr [], ts)
    | .lbrack :: ts =>
      match p.pv ts with
      | some (v, ts1) =>
        match p.pa ts1 with
        | some (vs, ts2) => some (.arr (v :: vs), ts2)
        | none => none
      | none => none
    | .lbrace :: .rbrace :: ts => some (.obj [], ts)
    | .lbrace :: ts =>
      match p.pm ts with
      | some ((k, v), ts1) =>
        match p.po ts1 with
        | some (ps, ts2) => some (.obj (mkObj ((k, v) :: ps)), ts2)
        | none => none
      | none => none
    | _ => none
  pa ts :=
    match ts with
    | .rbrack :: ts => some ([], ts)
    | .comma :: ts =>
      match p.pv ts with
      | some (v, ts1) =>
        match p.pa ts1 with
        | some (vs, ts2) => some (v :: vs, ts2)
        | none => none
      | none => none
    | _ => none
  pm ts :=
    match ts with
    | .tstr k :: .colon :: ts =>
      match p.pv ts with
      | some (v, ts1) => some ((k, v), ts1)
      | none => none
    | _ => none
  po ts :=
    match ts with
    | .rbrace :: ts => some ([], ts)
    | .comma :: ts =>
      match p.pm ts with
      | some ((k, v), ts1) =>
        match p.po ts1 with
        | some (ps, ts2) => some ((k, v) :: ps, ts2)
        | none => none
      | none => none
    | _ => none

/-- The fuel-indexed family of JSON parsers. -/
def parsers : Nat → Parsers
  | 0 => ⟨fun _ => none, fun _ => none, fun _ => none, fun _ => none⟩
  | fuel + 1 => parseStep (parsers fuel)

/-- Parse one JSON value under the given fuel, returning it with the
remaining tokens. -/
def parseVal (fuel : Nat) (ts : List Tok) : Option (Js × List Tok) :=
  (parsers fuel).pv ts

/-- Parse the tail of an array (after the first element) under the given
fuel. -/
def parseArrTail (fuel : Nat) (ts : List Tok) : Option (List Js × List Tok) :=
  (parsers fuel).pa ts

/-- Parse one object member under the given fuel. -/
def parseMember (fuel : Nat) (ts : List Tok) :
    Option ((String × Js) × List Tok) :=
  (parsers fuel).pm ts

/-- Parse the tail of an object (after the first member) under the given
fuel. -/
def parseObjTail (fuel : Nat) (ts : List Tok) :
    Option (List (String × Js) × List Tok) :=
  (parsers fuel).po ts

/-- `JSON.parse`: one value consuming the whole token stream; anything else
throws (`none`).  One fuel unit per token is always enough, since every
recursion step consumes at least one token. -/
def jsonParse (ts : List Tok) : Option Js :=
  match parseVal (ts.length + 1) ts with
  | some (v, []) => some v
  | _ => none

/-- The encode step applied to every opaque field at insert
(src/index.js:81-88): `JSON.stringify`; an absent value yields `none` and is
stored as NULL by the driver (`useNullAsDefault` at src/index.js:46). -/
def encodeField (v : Js) : Option (List Tok) :=
  jsonToks v

/-- The decode step applied to every opaque field on read
(src/index.js:111-118): `JSON.parse` of the stored column; a NULL column
reads back as the JavaScript `null` value, which `JSON.parse` coerces to the
text `null` before parsing. -/
def decodeField : Option (List Tok) → Option Js
  | none => jsonParse [Tok.tnull]
  | some ts => jsonParse ts

/-- Induction hypothesis shape of the round-trip proof: a proper JSON value
written by `toksOf` is read back unchanged by `parseVal`, for any
continuation and any fuel of at least one unit per written token. -/
def RT (v : Js) : Prop :=
  isPure v = true →
    ∀ fuel rest, (toksOf v).length + 1 ≤ fuel →
      parseVal fuel (toksOf v ++ rest) = some (v, rest)

/-- A row of the `emails` table as stored (src/index.js:53-58): the
autoassigned integer primary key, the two timestamps, and the eight opaque
columns, each holding serialized JSON text or NULL. -/
structure StoredRow where
  id : Nat
  created_at : Nat
  updated_at : Nat
  html : Option (List Tok)
  text : Option (List Tok)
  headers : Option (List Tok)
  subject : Option (List Tok)
  messageId : Option (List Tok)
  priority : Option (List Tok)
  «from» : Option (List Tok)
  «to» : Option (List Tok)
deriving DecidableEq

/-- A row after `deserialize` (src/index.js:110-121): every opaque column
replaced by its parsed value. -/
structure DecodedRow where
  id : Nat
  created_at : Nat
  updated_at : Nat
  html : Js
  text : Js
  headers : Js
  subject : Js
  messageId : Js
  priority : Js
  «from» : Js
  «to» : Js

/-- The decoded message object delivered by the external mail decoder
(`mail_object` at src/index.js:77): any of its fields may be absent. -/
structure MailObject where
  html : Js
  text : Js
  headers : Js
  subject : Js
  messageId : Js
  priority : Js

/-- The `emails` table: its rows in physical (insertion) order and the next
value of the autoincrementing primary key.  `table.increments()`
(src/index.js:54) creates an AUTOINCREMENT key under sqlite, whose sequence
only ever grows and survives deletes. -/
structure EmailTable where
  next_id : Nat
  rows : List StoredRow

/-- The table as created by the schema: empty, ids starting at 1. -/
def EmailTable.init : EmailTable := ⟨1, []⟩

/-- The insert performed at the end of a decoded data phase
(src/index.js:78-89): serialize the six decoded fields and the two envelope
addresses, assign the next id and the timestamps, append the row; knex
returns the assigned primary key. -/
def insertEmail (db : EmailTable) (now : Nat) (m : MailObject)
    (envFrom envTo : Js) : EmailTable × Nat :=
  let row : StoredRow :=
    { id := db.next_id, created_at := now, updated_at := now
      html := jsonToks m.html
      text := jsonToks m.text
      headers := jsonToks m.headers
      subject := jsonToks m.subject
      messageId := jsonToks m.messageId
      priority := jsonToks m.priority
      «from» := jsonToks envFrom
      «to» := jsonToks envTo }
  ({ next_id := db.next_id + 1, rows := db.rows ++ [row] }, db.next_id)

/-- `select * from emails` (src/index.js:149,169,176). -/
def selectAll (db : EmailTable) : List StoredRow :=
  db.rows

/-- `select * from emails where id = i` (src/index.js:93,197,206). -/
def selectById (db : EmailTable) (i : Nat) : List StoredRow :=
  db.rows.filter (fun r => r.id == i)

/-- `select * from emails where id <= k` (src/index.js:216). -/
def selectLe (db : EmailTable) (k : Nat) : List StoredRow :=
  db.rows.filter (fun r => decide (r.id ≤ k))

/-- `delete from emails where id = i` (src/index.js:210). -/
def deleteById (db : EmailTable) (i : Nat) : EmailTable :=
  { db with rows := db.rows.filter (fun r => !(r.id == i)) }

/-- `delete from emails where id <= k` (src/index.js:220). -/
def deleteLe (db : EmailTable) (k : Nat) : EmailTable :=
  { db with rows := db.rows.filter (fun r => !decide (r.id ≤ k)) }

/-- `deserialize` (src/index.js:110-121): `JSON.parse` every opaque column;
a parse failure throws, modelled by `none`. -/
def deserialize (o : StoredRow) : Option DecodedRow :=
  Option.bind (decodeField o.html) fun html =>
  Option.bind (decodeField o.text) fun text =>
  Option.bind (decodeField o.headers) fun headers =>
  Option.bind (decodeField o.subject) fun subject =>
  Option.bind (decodeField o.messageId) fun messageId =>
  Option.bind (decodeField o.priority) fun priority =>
  Option.bind (decodeField o.«from») fun envFrom =>
  Option.bind (decodeField o.«to») fun envTo =>
  some { id := o.id, created_at := o.created_at, updated_at := o.updated_at
         html, text, headers, subject, messageId, priority
         «from» := envFrom, «to» := envTo }

/-- `resp.forEach(self.deserialize)` over a result list: all rows decode or
the request fails (src/index.js:170). -/
def deserializeAll : List StoredRow → Option (List DecodedRow)
  | [] => some []
  | r :: rs =>
    match deserialize r, deserializeAll rs with
    | some d, some ds => some (d :: ds)
    | _, _ => none

/-- `GET /api/email` (src/index.js:168-172): the full listing with every row
decoded. -/
def apiEmail (db : EmailTable) : Option (List DecodedRow) :=
  deserializeAll (selectAll db)

/-- `GET /api/email/stream` (src/index.js:175-185): the rows of the full
listing piped straight into the JSON stream, without `deserialize`. -/
def apiEmailStream (db : EmailTable) : List StoredRow :=
  selectAll db

/-- Text form of one token, for serializing a raw (still encoded) column
onto the wire. -/
def renderTok : Tok → String
  | .lbrace => "\x7b"
  | .rbrace => "\x7d"
  | .lbrack => "["
  | .rbrack => "]"
  | .colon => ":"
  | .comma => ","
  | .tnull => "null"
  | .tbool b => toString b
  | .tnum n => toString n
  | .tstr s => "\"" ++ s ++ "\""

/-- Text form of a token stream. -/
def renderToks (ts : List Tok) : String :=
  String.join (ts.map renderTok)

/-- What a raw stored column looks like on the wire: NULL serializes as
`null`, encoded JSON text serializes as a string value holding that text. -/
def rawFieldWire : Option (List Tok) → Js
  | none => .null
  | some ts => .str (renderToks ts)

/-- Wire shape of a raw stored row, as the stream route emits it. -/
def StoredRow.wireJs (r : StoredRow) : Js :=
  .obj [("id", .num r.id), ("created_at", .num r.created_at),
        ("updated_at", .num r.updated_at),
        ("html", rawFieldWire r.html), ("text", rawFieldWire r.text),
        ("headers", rawFieldWire r.headers),
        ("subject", rawFieldWire r.subject),
        ("messageId", rawFieldWire r.messageId),
        ("priority", rawFieldWire r.priority),
        ("from", rawFieldWire r.«from»), ("to", rawFieldWire r.«to»)]

/-- Wire shape of a decoded row, as `res.json` emits it. -/
def DecodedRow.wireJs (r : DecodedRow) : Js :=
  .obj [("id", .num r.id), ("created_at", .num r.created_at),
        ("updated_at", .num r.updated_at),
        ("html", r.html), ("text", r.text), ("headers", r.headers),
        ("subject", r.subject), ("messageId", r.messageId),
        ("priority", r.priority), ("from", r.«from»), ("to", r.«to»)]

/-- Wire output of `GET /api/email`. -/
def apiEmailWire (db : EmailTable) : Option (List Js) :=
  (apiEmail db).map (fun l => l.map DecodedRow.wireJs)

/-- Wire output of `GET /api/email/stream`. -/
def apiEmailStreamWire (db : EmailTable) : List Js :=
  (apiEmailStream db).map StoredRow.wireJs

/-- `GET /api/email/:id` (src/index.js:196-203): first row with that id,
decoded; `none` when absent (404) or when decoding throws. -/
def apiEmailById (db : EmailTable) (i : Nat) : Option DecodedRow :=
  match selectById db i with
  | [] => none
  | r :: _ => deserialize r

/-- `GET /api/email/delete/:id` (src/index.js:205-213): look the id up, 404
when absent, otherwise delete it and answer 200. -/
def apiEmailDelete (db : EmailTable) (i : Nat) : EmailTable × Nat :=
  match selectById db i with
  | [] => (db, 404)
  | _ :: _ => (deleteById db i, 200)

/-- `GET /api/email/purge/:id` (src/index.js:215-223): look up the rows at
or below the threshold, 404 when there are none, otherwise delete them and
answer 200. -/
def apiEmailPurge (db : EmailTable) (k : Nat) : EmailTable × Nat :=
  match selectLe db k with
  | [] => (db, 404)
  | _ :: _ => (deleteLe db k, 200)

/-- Observable events of the data-phase completion handler, in emission
order. -/
inductive SinkEv where
  | inserted (i : Nat)
  | published (r : DecodedRow)
  | acked

/-- The `mailparser` end handler (src/index.js:77-97): await the insert,
re-read the inserted row by its returned primary key, publish its decoded
form on the event bus, then acknowledge the session via `donecallback`.  A
decode throw aborts the handler before publish and acknowledgment. -/
def handleEnd (db : EmailTable) (now : Nat) (m : MailObject)
    (envFrom envTo : Js) : EmailTable × List SinkEv :=
  let ins := insertEmail db now m envFrom envTo
  match selectById ins.1 ins.2 with
  | [] => (ins.1, [.inserted ins.2])
  | r :: _ =>
    match deserialize r with
    | none => (ins.1, [.inserted ins.2])
    | some d => (ins.1, [.inserted ins.2, .published d, .acked])

/-- One operation of the Archive Store's lifetime. -/
inductive StoreOp where
  | insertOp (now : Nat) (m : MailObject) (envFrom envTo : Js)
  | deleteOp (i : Nat)
  | purgeOp (k : Nat)

/-- Id-level events of the store's lifetime: an id assigned by an insert, or
an id removed by a delete or purge. -/
inductive StoreEv where
  | assigned (i : Nat)
  | removed (i : Nat)
deriving DecidableEq

/-- The id an event is about. -/
def StoreEv.evId : StoreEv → Nat
  | .assigned i => i
  | .removed i => i

/-- Apply one store operation, recording the ids it assigns or removes. -/
def applyOp (db : EmailTable) : StoreOp → EmailTable × List StoreEv
  | .insertOp now m envFrom envTo =>
    let ins := insertEmail db now m envFrom envTo
    (ins.1, [.assigned ins.2])
  | .deleteOp i =>
    ((apiEmailDelete db i).1, (selectById db i).map (fun r => .removed r.id))
  | .purgeOp k =>
    ((apiEmailPurge db k).1, (selectLe db k).map (fun r => .removed r.id))

/-- Run a lifetime of store operations, concatenating their events. -/
def runOps (db : EmailTable) : List StoreOp → EmailTable × List StoreEv
  | [] => (db, [])
  | op :: ops =>
    let st := applyOp db op
    let rest := runOps st.1 ops
    (rest.1, st.2 ++ rest.2)

/-- The assigned ids among a list of store events, in order. -/
def assignedIds (evs : List StoreEv) : List Nat :=
  evs.filterMap (fun e => match e with | .assigned i => some i | _ => none)

/-- Store invariant: row ids are strictly increasing in physical order and
stay below the autoincrement sequence. -/
def StoreInv (db : EmailTable) : Prop :=
  (db.rows.map (fun r => r.id)).Chain' (· < ·) ∧
    ∀ r ∈ db.rows, r.id < db.next_id

/-- The sqlite file behind the store, as far as schema creation observes it:
whether the `emails` table exists. -/
structure SinkDb where
  hasTable : Bool

/-- A failure of `createTable`: the table existing already, or any other
error of the engine. -/
inductive SchemaErr where
  | alreadyExists
  | other (msg : String)
deriving DecidableEq

/-- The message carried by a schema failure. -/
def SchemaErr.message : SchemaErr → String
  | .alreadyExists => "table emails already exists"
  | .other msg => msg

/-- `db.schema.createTable` (src/index.js:53-58): fails when the table
already exists; otherwise an injected engine fault `fault` fails it, and
absent any fault it creates the table. -/
def createTable (db : SinkDb) (fault : Option String) :
    SinkDb × Except SchemaErr Unit :=
  if db.hasTable then (db, .error .alreadyExists)
  else
    match fault with
    | some msg => (db, .error (.other msg))
    | none => ({ hasTable := true }, .ok ())

/-- `createSchema` (src/index.js:41-62): try `createTable`; every failure is
caught, its message logged, and the method returns normally.  The result is
the file state, the logged message if any, and what propagates to the caller
of `start`. -/
def createSchema (db : SinkDb) (fault : Option String) :
    SinkDb × Option String × Except SchemaErr Unit :=
  match createTable db fault with
  | (db', .ok _) => (db', none, .ok ())
  | (db', .error e) => (db', some e.message, .ok ())

/-- One event at the process-wide event bus (the `EventEmitter` carrying
`email` events): a live viewer subscribing (src/index.js:161), a viewer
unsubscribing on disconnect (src/index.js:163-165), or a publication
(src/index.js:95). -/
inductive BusOp where
  | subscribe (s : Nat)
  | unsubscribe (s : Nat)
  | publish (r : DecodedRow)

/-- Whether an event subscribes the given subscriber. -/
def isSubOf (s : Nat) : BusOp → Bool
  | .subscribe t => t == s
  | _ => false

/-- One bus event against the listener list: `on` appends, `removeListener`
removes the most recently added matching listener, publication leaves the
list unchanged. -/
def busStep (regs : List Nat) : BusOp → List Nat
  | .subscribe s => regs ++ [s]
  | .unsubscribe s => ((regs.reverse).erase s).reverse
  | .publish _ => regs

/-- Listener list after a sequence of bus events, in registration order. -/
def regsAfter (ops : List BusOp) : List Nat :=
  ops.foldl busStep []

/-- Listener list at the moment event `i` of the sequence fires. -/
def regsAt (ops : List BusOp) (i : Nat) : List Nat :=
  regsAfter (ops.take i)

/-- The subscribers a publication at position `i` is delivered to,
synchronously and in registration order; a non-publication delivers to
nobody. -/
def deliveredAt (ops : List BusOp) (i : Nat) : List Nat :=
  match ops[i]? with
  | some (.publish _) => regsAt ops i
  | _ => []

/-- The subscribers of the subscription events of a sequence, in order. -/
def subsOf (ops : List BusOp) : List Nat :=
  ops.filterMap (fun op => match op with | .subscribe s => some s | _ => none)

/-- A concrete stored row with id 1, used to instantiate the general
theorems. -/
def rowA : StoredRow :=
  ⟨1, 0, 0, none, some [Tok.tstr "hi"], none, none, none, none,
    some [Tok.lbrack, Tok.tstr "a@x", Tok.rbrack],
    some [Tok.lbrack, Tok.tstr "b@y", Tok.rbrack]⟩

/-- A concrete stored row with id 2, used to instantiate the general
theorems. -/
def rowB : StoredRow :=
  ⟨2, 0, 0, none, none, none, none, none, none, none, none⟩

/-- A concrete two-row table, used to instantiate the general theorems. -/
def dbAB : EmailTable := ⟨3, [rowA, rowB]⟩

/-- A concrete one-row table, used to instantiate the general theorems. -/
def dbA : EmailTable := ⟨2, [rowA]⟩

/-- The `text` member of each wire object of a response, used to observe a
difference between two wire outputs. -/
def wireTexts (l : List Js) : List (Option Js) :=
  l.map (fun j => match j with | .obj ps => ps.lookup "text" | _ => none)

/-- A decoded message all of whose fields are absent. -/
def mailUndef : MailObject := ⟨.undef, .undef, .undef, .undef, .undef, .undef⟩

/-- A concrete store lifetime — insert, delete the assigned id, insert
again — used to instantiate the id-uniqueness theorem. -/
def opsW : List StoreOp :=
  [.insertOp 0 mailUndef .undef .undef, .deleteOp 1,
   .insertOp 0 mailUndef .undef .undef]

/-- A concrete nested JSON value covering sequences, mappings, null, text
and numbers, used to instantiate the round-trip theorem. -/
def sampleJson : Js :=
  .obj [("a", .arr [.num 1, .str "x", .null]), ("b", .obj []),
        ("c", .bool true)]

/-- The decoded row the all-absent message produces: every opaque column is
stored NULL and reads back as `null`. -/
def rowUndefDecoded : DecodedRow :=
  ⟨1, 0, 0, .null, .null, .null, .null, .null, .null, .null, .null⟩

/-- A concrete bus history — subscribe, publish, unsubscribe, publish —
used to instantiate the delivery theorem. -/
def opsB : List BusOp :=
  [.subscribe 7, .publish rowUndefDecoded, .unsubscribe 7,
   .publish rowUndefDecoded]

end RestSmtpSink

namespace RestSmtpSink

/-! ### Unfolding lemmas for the fuel-indexed JSON parser -/

/-- One fuel step of the value parser on a `null` literal. -/
theorem parseVal_succ_tnull (n : Nat) (ts : List Tok) :
    parseVal (n + 1) (Tok.tnull :: ts) = some (Js.null, ts) := rfl

/-- One fuel step of the value parser on a boolean literal. -/
theorem parseVal_succ_tbool (n : Nat) (b : Bool) (ts : List Tok) :
    parseVal (n + 1) (Tok.tbool b :: ts) = some (Js.bool b, ts) := rfl

/-- One fuel step of the value parser on a number literal. -/
theorem parseVal_succ_tnum (n : Nat) (i : Int) (ts : List Tok) :
    parseVal (n + 1) (Tok.tnum i :: ts) = some (Js.num i, ts) := rfl

/-- One fuel step of the value parser on a string literal. -/
theorem parseVal_succ_tstr (n : Nat) (s : String) (ts : List Tok) :
    parseVal (n + 1) (Tok.tstr s :: ts) = some (Js.str s, ts) := rfl

/-- One fuel step of the value parser on an empty array. -/
theorem parseVal_succ_arr_nil (n : Nat) (ts : List Tok) :
    parseVal (n + 1) (Tok.lbrack :: Tok.rbrack :: ts) =
      some (Js.arr [], ts) := rfl

/-- One fuel step of the value parser on an empty object. -/
theorem parseVal_succ_obj_nil (n : Nat) (ts : List Tok) :
    parseVal (n + 1) (Tok.lbrace :: Tok.rbrace :: ts) =
      some (Js.obj [], ts) := rfl

/-- One fuel step of the value parser on a nonempty array whose first
element and tail both parse. -/
theorem parseVal_succ_arr_cons (n : Nat) (t : Tok) (ts ts1 ts2 : List Tok)
    (v : Js) (vs : List Js) (ht : t ≠ Tok.rbrack)
    (hv : parseVal n (t :: ts) = some (v, ts1))
    (ha : parseArrTail n ts1 = some (vs, ts2)) :
    parseVal (n + 1) (Tok.lbrack :: t :: ts) =
      some (Js.arr (v :: vs), ts2) := by
  have h1 : parseVal (n + 1) (Tok.lbrack :: t :: ts) =
      (match parseVal n (t :: ts) with
        | some (w, l1) =>
          (match parseArrTail n l1 with
            | some (ws, l2) => some (Js.arr (w :: ws), l2)
            | none => none)
        | none => none) := by
    cases t <;> first | exact absurd rfl ht | rfl
  rw [h1]
  simp only [hv, ha]

/-- One fuel step of the value parser on a nonempty object whose first
member and tail both parse. -/
theorem parseVal_succ_obj_cons (n : Nat) (k : String) (ts ts1 ts2 : List Tok)
    (v : Js) (ps : List (String × Js))
    (hm : parseMember n (Tok.tstr k :: Tok.colon :: ts) = some ((k, v), ts1))
    (ho : parseObjTail n ts1 = some (ps, ts2)) :
    parseVal (n + 1) (Tok.lbrace :: Tok.tstr k :: Tok.colon :: ts) =
      some (Js.obj (mkObj ((k, v) :: ps)), ts2) := by
  have h1 : parseVal (n + 1) (Tok.lbrace :: Tok.tstr k :: Tok.colon :: ts) =
      (match parseMember n (Tok.tstr k :: Tok.colon :: ts) with
        | some ((k', w), l1) =>
          (match parseObjTail n l1 with
            | some (qs, l2) => some (Js.obj (mkObj ((k', w) :: qs)), l2)
            | none => none)
        | none => none) := rfl
  rw [h1]
  simp only [hm, ho]

/-- One fuel step of the member parser. -/
theorem parseMember_succ (n : Nat) (k : String) (ts ts1 : List Tok) (v : Js)
    (hv : parseVal n ts = some (v, ts1)) :
    parseMember (n + 1) (Tok.tstr k :: Tok.colon :: ts) =
      some ((k, v), ts1) := by
  have h1 : parseMember (n + 1) (Tok.tstr k :: Tok.colon :: ts) =
      (match parseVal n ts with
        | some (w, l1) => some ((k, w), l1)
        | none => none) := rfl
  rw [h1]
  simp only [hv]

/-- One fuel step of the array-tail parser at the closing bracket. -/
theorem parseArrTail_succ_rbrack (n : Nat) (ts : List Tok) :
    parseArrTail (n + 1) (Tok.rbrack :: ts) = some ([], ts) := rfl

/-- One fuel step of the array-tail parser at a comma. -/
theorem parseArrTail_succ_comma (n : Nat) (ts ts1 ts2 : List Tok) (v : Js)
    (vs : List Js) (hv : parseVal n ts = some (v, ts1))
    (ha : parseArrTail n ts1 = some (vs, ts2)) :
    parseArrTail (n + 1) (Tok.comma :: ts) = some (v :: vs, ts2) := by
  have h1 : parseArrTail (n + 1) (Tok.comma :: ts) =
      (match parseVal n ts with
        | some (w, l1) =>
          (match parseArrTail n l1 with
            | some (ws, l2) => some (w :: ws, l2)
            | none => none)
        | none => none) := rfl
  rw [h1]
  simp only [hv, ha]

/-- One fuel step of the object-tail parser at the closing brace. -/
theorem parseObjTail_succ_rbrace (n : Nat) (ts : List Tok) :
    parseObjTail (n + 1) (Tok.rbrace :: ts) = some ([], ts) := rfl

/-- One fuel step of the object-tail parser at a comma. -/
theorem parseObjTail_succ_comma (n : Nat) (ts ts1 ts2 : List Tok)
    (k : String) (v : Js) (ps : List (String × Js))
    (hm : parseMember n ts = some ((k, v), ts1))
    (ho : parseObjTail n ts1 = some (ps, ts2)) :
    parseObjTail (n + 1) (Tok.comma :: ts) = some ((k, v) :: ps, ts2) := by
  have h1 : parseObjTail (n + 1) (Tok.comma :: ts) =
      (match parseMember n ts with
        | some ((k', w), l1) =>
          (match parseObjTail n l1 with
            | some (qs, l2) => some ((k', w) :: qs, l2)
            | none => none)
        | none => none) := rfl
  rw [h1]
  simp only [hm, ho]

/-! ### Purity and serialization shape lemmas -/

/-- A proper JSON value is not the absent value. -/
theorem isPure_not_undef {v : Js} (h : isPure v = true) :
    v.isUndef = false := by
  cases v <;> simp [Js.isUndef] <;> simp [isPure] at h

/-- Purity of a sequence is purity of each element. -/
theorem pureList_iff (xs : List Js) :
    pureList xs = true ↔ ∀ x ∈ xs, isPure x = true := by
  induction xs with
  | nil => simp [pureList]
  | cons x xs ih => simp [pureList, ih]

/-- Purity of a mapping's values is purity of each value. -/
theorem purePairs_iff (ps : List (String × Js)) :
    purePairs ps = true ↔ ∀ p ∈ ps, isPure p.2 = true := by
  induction ps with
  | nil => simp [purePairs]
  | cons p ps ih =>
    cases p
    simp [purePairs, ih]

/-- The serialization of a proper JSON value is nonempty and opens with a
token that closes neither an array nor an object. -/
theorem toksOf_head {v : Js} (h : isPure v = true) :
    ∃ t ts, toksOf v = t :: ts ∧ t ≠ Tok.rbrack ∧ t ≠ Tok.rbrace := by
  cases v with
  | undef => simp [isPure] at h
  | null => exact ⟨Tok.tnull, [], by simp [toksOf], by simp, by simp⟩
  | bool b => exact ⟨Tok.tbool b, [], by simp [toksOf], by simp, by simp⟩
  | num n => exact ⟨Tok.tnum n, [], by simp [toksOf], by simp, by simp⟩
  | str s => exact ⟨Tok.tstr s, [], by simp [toksOf], by simp, by simp⟩
  | arr xs =>
    exact ⟨Tok.lbrack, sepJoin (arrChunks xs) ++ [Tok.rbrack],
      by simp [toksOf], by simp, by simp⟩
  | obj ps =>
    exact ⟨Tok.lbrace, sepJoin (objChunks ps) ++ [Tok.rbrace],
      by simp [toksOf], by simp, by simp⟩

/-- The serialization of a proper JSON value holds at least one token. -/
theorem toksOf_len_pos {v : Js} (h : isPure v = true) :
    1 ≤ (toksOf v).length := by
  obtain ⟨t, ts, heq, -, -⟩ := toksOf_head h
  simp [heq]

/-- The serialized array tail holds at least one token. -/
theorem arrTailToks_len_pos (xs : List Js) :
    1 ≤ (arrTailToks xs).length := by
  cases xs <;> simp [arrTailToks]

/-- The serialized object tail holds at least one token. -/
theorem objTailToks_len_pos (ps : List (String × Js)) :
    1 ≤ (objTailToks ps).length := by
  rcases ps with _ | ⟨⟨k, v⟩, ps⟩ <;> simp [objTailToks]

/-- On a pure sequence the serialized chunks are just the serializations of
the elements. -/
theorem arrChunks_pure {xs : List Js} (h : pureList xs = true) :
    arrChunks xs = xs.map toksOf := by
  induction xs with
  | nil => simp [arrChunks]
  | cons x xs ih =>
    rw [pureList_iff] at h
    have hx : x.isUndef = false := isPure_not_undef (h x (by simp))
    have ht : pureList xs = true := by
      rw [pureList_iff]
      exact fun y hy => h y (List.mem_cons_of_mem x hy)
    simp [arrChunks, hx, ih ht]

/-- On a pure mapping the serialized chunks are key, colon and the
serialized value, one chunk per member. -/
theorem objChunks_pure {ps : List (String × Js)} (h : purePairs ps = true) :
    objChunks ps =
      ps.map (fun p => Tok.tstr p.1 :: Tok.colon :: toksOf p.2) := by
  induction ps with
  | nil => simp [objChunks]
  | cons p ps ih =>
    rcases p with ⟨k, v⟩
    rw [purePairs_iff] at h
    have hv : v.isUndef = false := isPure_not_undef (h (k, v) (by simp))
    have ht : purePairs ps = true := by
      rw [purePairs_iff]
      exact fun q hq => h q (List.mem_cons_of_mem (k, v) hq)
    simp [objChunks, hv, ih ht]

/-- Comma-joining the serialized elements and closing the bracket equals the
first element's serialization followed by the serialized array tail. -/
theorem sepJoin_rbrack (xs : List Js) :
    ∀ x : Js, sepJoin (toksOf x :: xs.map toksOf) ++ [Tok.rbrack] =
      toksOf x ++ arrTailToks xs := by
  induction xs with
  | nil => intro x; simp [sepJoin, arrTailToks]
  | cons y ys ih =>
    intro x
    rw [List.map_cons, sepJoin, arrTailToks, List.append_assoc,
      List.cons_append, ih y]
    simp [List.cons_append]

/-- Comma-joining the serialized members and closing the brace equals the
first member's serialization followed by the serialized object tail. -/
theorem sepJoin_rbrace (ps : List (String × Js)) :
    ∀ (k : String) (v : Js),
      sepJoin ((Tok.tstr k :: Tok.colon :: toksOf v) ::
        ps.map (fun p => Tok.tstr p.1 :: Tok.colon :: toksOf p.2)) ++
          [Tok.rbrace] =
        Tok.tstr k :: Tok.colon :: (toksOf v ++ objTailToks ps) := by
  induction ps with
  | nil => intro k v; simp [sepJoin, objTailToks]
  | cons q qs ih =>
    intro k v
    rcases q with ⟨k', v'⟩
    simp only [List.map_cons, sepJoin, objTailToks, List.cons_append,
      List.nil_append, List.append_assoc] at ih ⊢
    rw [ih k' v']

/-- Serialization of a pure nonempty array. -/
theorem toksOf_arr_cons {x : Js} {xs : List Js}
    (h : pureList (x :: xs) = true) :
    toksOf (Js.arr (x :: xs)) =
      Tok.lbrack :: (toksOf x ++ arrTailToks xs) := by
  have hx : arrChunks (x :: xs) = toksOf x :: xs.map toksOf := by
    rw [arrChunks_pure h, List.map_cons]
  rw [toksOf, hx]
  simp [sepJoin_rbrack xs x]

/-- Serialization of a pure nonempty object. -/
theorem toksOf_obj_cons {k : String} {v : Js} {ps : List (String × Js)}
    (h : purePairs ((k, v) :: ps) = true) :
    toksOf (Js.obj ((k, v) :: ps)) =
      Tok.lbrace :: Tok.tstr k :: Tok.colon :: (toksOf v ++ objTailToks ps) := by
  have hx : objChunks ((k, v) :: ps) =
      (Tok.tstr k :: Tok.colon :: toksOf v) ::
        ps.map (fun p => Tok.tstr p.1 :: Tok.colon :: toksOf p.2) := by
    simp only [objChunks_pure h, List.map_cons]
  rw [toksOf, hx]
  have h2 := sepJoin_rbrace ps k v
  simp only [List.cons_append] at h2 ⊢
  rw [h2]

/-- Serialization of the empty array. -/
theorem toksOf_arr_nil :
    toksOf (Js.arr []) = [Tok.lbrack, Tok.rbrack] := by
  simp [toksOf, arrChunks, sepJoin]

/-- Serialization of the empty object. -/
theorem toksOf_obj_nil :
    toksOf (Js.obj []) = [Tok.lbrace, Tok.rbrace] := by
  simp [toksOf, objChunks, sepJoin]

/-- Folding member insertion over a list whose keys are distinct and absent
from the accumulator appends the members unchanged. -/
theorem foldl_insertPair (ps : List (String × Js)) :
    ∀ acc : List (String × Js),
      (∀ p ∈ ps, acc.any (fun q => q.1 == p.1) = false) →
      nodupKeys (ps.map Prod.fst) = true →
      ps.foldl (fun acc p => insertPair acc p.1 p.2) acc = acc ++ ps := by
  induction ps with
  | nil => intro acc _ _; simp
  | cons p ps ih =>
    intro acc hdisj hnd
    rcases p with ⟨k, v⟩
    have hk : acc.any (fun q => q.1 == k) = false := hdisj (k, v) (by simp)
    have hstep : insertPair acc k v = acc ++ [(k, v)] := by
      rw [insertPair, if_neg]
      simp [hk]
    simp only [List.map_cons, nodupKeys, Bool.and_eq_true,
      Bool.not_eq_true'] at hnd
    have hkeys : ∀ p ∈ ps, (k == p.1) = false := by
      intro q hq
      have : q.1 ∈ ps.map Prod.fst := List.mem_map_of_mem Prod.fst hq
      rcases hcon : (k == q.1) with _ | _
      · rfl
      · exfalso
        have : (ps.map Prod.fst).contains k = true := by
          rw [List.contains_eq_any_beq]
          exact List.any_of_mem this hcon
        rw [hnd.1] at this
        cases this
    have hdisj' : ∀ p ∈ ps, (acc ++ [(k, v)]).any (fun q => q.1 == p.1) = false := by
      intro q hq
      rw [List.any_append]
      have h1 : acc.any (fun r => r.1 == q.1) = false :=
        hdisj q (List.mem_cons_of_mem (k, v) hq)
      have h2 : [(k, v)].any (fun r => r.1 == q.1) = false := by
        simp only [List.any_cons, List.any_nil, Bool.or_false]
        exact hkeys q hq
      rw [h1, h2]
      rfl
    rw [List.foldl_cons, hstep, ih (acc ++ [(k, v)]) hdisj' hnd.2]
    simp

/-- Rebuilding a parsed member list whose keys are distinct returns it
unchanged. -/
theorem mkObj_nodup {ps : List (String × Js)}
    (hnd : nodupKeys (ps.map Prod.fst) = true) : mkObj ps = ps := by
  rw [mkObj, foldl_insertPair ps [] (by simp) hnd]
  rfl

/-- Structural induction principle for `Js` exposing membership hypotheses
over the nested element and member lists. -/
theorem Js.indMem (P : Js → Prop) (hundef : P .undef) (hnull : P .null)
    (hbool : ∀ b, P (.bool b)) (hnum : ∀ n, P (.num n))
    (hstr : ∀ s, P (.str s))
    (harr : ∀ xs, (∀ x ∈ xs, P x) → P (.arr xs))
    (hobj : ∀ ps, (∀ p ∈ ps, P p.2) → P (.obj ps)) : ∀ v, P v
  | .undef => hundef
  | .null => hnull
  | .bool b => hbool b
  | .num n => hnum n
  | .str s => hstr s
  | .arr xs => harr xs (fun x hx =>
      Js.indMem P hundef hnull hbool hnum hstr harr hobj x)
  | .obj ps => hobj ps (fun p hp =>
      Js.indMem P hundef hnull hbool hnum hstr harr hobj p.2)
termination_by v => sizeOf v
decreasing_by
  · have h1 := List.sizeOf_lt_of_mem hx
    simp only [Js.arr.sizeOf_spec]
    omega
  · have h1 := List.sizeOf_lt_of_mem hp
    rcases p with ⟨a, b⟩
    simp only [Js.obj.sizeOf_spec, Prod.mk.sizeOf_spec] at h1 ⊢
    omega

/-- A serialized pure array tail parses back to its elements, for any
continuation, under one fuel unit per token. -/
theorem parseArrTail_toks :
    ∀ xs : List Js, (∀ x ∈ xs, RT x) → pureList xs = true →
      ∀ fuel rest, (arrTailToks xs).length + 1 ≤ fuel →
        parseArrTail fuel (arrTailToks xs ++ rest) = some (xs, rest) := by
  intro xs
  induction xs with
  | nil =>
    intro _ _ fuel rest hf
    obtain ⟨f, rfl⟩ : ∃ f, fuel = f + 1 := ⟨fuel - 1, by omega⟩
    simp only [arrTailToks, List.singleton_append]
    exact parseArrTail_succ_rbrack f rest
  | cons x xs ih =>
    intro hRT hp fuel rest hf
    have hx : RT x := hRT x (by simp)
    have hpx : isPure x = true := (pureList_iff _).1 hp x (by simp)
    have hpxs : pureList xs = true := by
      rw [pureList_iff] at hp ⊢
      exact fun y hy => hp y (by simp [hy])
    have hlx : 1 ≤ (toksOf x).length := toksOf_len_pos hpx
    have hlt : 1 ≤ (arrTailToks xs).length := arrTailToks_len_pos xs
    rw [arrTailToks] at hf ⊢
    simp only [List.cons_append, List.append_assoc] at hf ⊢
    simp only [List.length_cons, List.length_append] at hf
    obtain ⟨f, rfl⟩ : ∃ f, fuel = f + 1 := ⟨fuel - 1, by omega⟩
    have h1 := hx hpx f (arrTailToks xs ++ rest) (by omega)
    have h2 := ih (fun y hy => hRT y (by simp [hy])) hpxs f rest (by omega)
    exact parseArrTail_succ_comma f _ _ _ x xs h1 h2

/-- A serialized pure object tail parses back to its members, for any
continuation, under one fuel unit per token. -/
theorem parseObjTail_toks :
    ∀ ps : List (String × Js), (∀ p ∈ ps, RT p.2) → purePairs ps = true →
      ∀ fuel rest, (objTailToks ps).length + 1 ≤ fuel →
        parseObjTail fuel (objTailToks ps ++ rest) = some (ps, rest) := by
  intro ps
  induction ps with
  | nil =>
    intro _ _ fuel rest hf
    obtain ⟨f, rfl⟩ : ∃ f, fuel = f + 1 := ⟨fuel - 1, by omega⟩
    simp only [objTailToks, List.singleton_append]
    exact parseObjTail_succ_rbrace f rest
  | cons q qs ih =>
    rcases q with ⟨k, v⟩
    intro hRT hp fuel rest hf
    have hv : RT v := hRT (k, v) (by simp)
    have hpv : isPure v = true := by
      rw [purePairs_iff] at hp
      exact hp (k, v) (by simp)
    have hpqs : purePairs qs = true := by
      rw [purePairs_iff] at hp ⊢
      exact fun q hq => hp q (by simp [hq])
    have hlv : 1 ≤ (toksOf v).length := toksOf_len_pos hpv
    have hlq : 1 ≤ (objTailToks qs).length := objTailToks_len_pos qs
    rw [objTailToks] at hf ⊢
    simp only [List.cons_append, List.append_assoc] at hf ⊢
    simp only [List.length_cons, List.length_append] at hf
    obtain ⟨f, rfl⟩ : ∃ f, fuel = f + 1 := ⟨fuel - 1, by omega⟩
    obtain ⟨f', rfl⟩ : ∃ f', f = f' + 1 := ⟨f - 1, by omega⟩
    have h1 := parseMember_succ f' k _ _ v
      (hv hpv f' (objTailToks qs ++ rest) (by omega))
    have h2 := ih (fun q hq => hRT q (by simp [hq])) hpqs (f' + 1) rest
      (by omega)
    exact parseObjTail_succ_comma (f' + 1) _ _ _ k v qs h1 h2

/-- Every value satisfies the round-trip induction statement: a pure value
serialized by `toksOf` parses back to itself. -/
theorem rt_val : ∀ v : Js, RT v := by
  intro v
  induction v using Js.indMem with
  | hundef =>
    intro h fuel rest hf
    simp [isPure] at h
  | hnull =>
    intro _ fuel rest hf
    have ht : toksOf Js.null = [Tok.tnull] := by simp [toksOf]
    rw [ht] at hf ⊢
    obtain ⟨f, rfl⟩ : ∃ f, fuel = f + 1 := ⟨fuel - 1, by omega⟩
    simp only [List.singleton_append]
    exact parseVal_succ_tnull f rest
  | hbool b =>
    intro _ fuel rest hf
    have ht : toksOf (Js.bool b) = [Tok.tbool b] := by simp [toksOf]
    rw [ht] at hf ⊢
    obtain ⟨f, rfl⟩ : ∃ f, fuel = f + 1 := ⟨fuel - 1, by omega⟩
    simp only [List.singleton_append]
    exact parseVal_succ_tbool f b rest
  | hnum n =>
    intro _ fuel rest hf
    have ht : toksOf (Js.num n) = [Tok.tnum n] := by simp [toksOf]
    rw [ht] at hf ⊢
    obtain ⟨f, rfl⟩ : ∃ f, fuel = f + 1 := ⟨fuel - 1, by omega⟩
    simp only [List.singleton_append]
    exact parseVal_succ_tnum f n rest
  | hstr s =>
    intro _ fuel rest hf
    have ht : toksOf (Js.str s) = [Tok.tstr s] := by simp [toksOf]
    rw [ht] at hf ⊢
    obtain ⟨f, rfl⟩ : ∃ f, fuel = f + 1 := ⟨fuel - 1, by omega⟩
    simp only [List.singleton_append]
    exact parseVal_succ_tstr f s rest
  | harr xs hmem =>
    intro h fuel rest hf
    have hp : pureList xs = true := by simpa [isPure] using h
    cases xs with
    | nil =>
      rw [toksOf_arr_nil] at hf ⊢
      obtain ⟨f, rfl⟩ : ∃ f, fuel = f + 1 := ⟨fuel - 1, by omega⟩
      simp only [List.cons_append, List.nil_append]
      exact parseVal_succ_arr_nil f rest
    | cons x xs' =>
      rw [toksOf_arr_cons hp] at hf ⊢
      have hpx : isPure x = true := (pureList_iff _).1 hp x (by simp)
      have hpxs : pureList xs' = true := by
        rw [pureList_iff] at hp ⊢
        exact fun y hy => hp y (by simp [hy])
      have hlx : 1 ≤ (toksOf x).length := toksOf_len_pos hpx
      have hlt : 1 ≤ (arrTailToks xs').length := arrTailToks_len_pos xs'
      simp only [List.length_cons, List.length_append] at hf
      obtain ⟨f, rfl⟩ : ∃ f, fuel = f + 1 := ⟨fuel - 1, by omega⟩
      simp only [List.cons_append, List.append_assoc]
      obtain ⟨t, ts0, hts, htb, _⟩ := toksOf_head hpx
      rw [hts]
      simp only [List.cons_append]
      have hone := hmem x (by simp) hpx f (arrTailToks xs' ++ rest)
        (by omega)
      rw [hts] at hone
      simp only [List.cons_append, List.append_assoc] at hone
      have htail := parseArrTail_toks xs' (fun y hy => hmem y (by simp [hy]))
        hpxs f rest (by omega)
      exact parseVal_succ_arr_cons f t _ _ _ x xs' htb hone htail
  | hobj ps hmem =>
    intro h fuel rest hf
    have hp : purePairs ps = true ∧ nodupKeys (ps.map Prod.fst) = true := by
      simpa [isPure] using h
    cases ps with
    | nil =>
      rw [toksOf_obj_nil] at hf ⊢
      obtain ⟨f, rfl⟩ : ∃ f, fuel = f + 1 := ⟨fuel - 1, by omega⟩
      simp only [List.cons_append, List.nil_append]
      exact parseVal_succ_obj_nil f rest
    | cons q qs =>
      rcases q with ⟨k, v⟩
      rw [toksOf_obj_cons hp.1] at hf ⊢
      have hpv : isPure v = true := (purePairs_iff _).1 hp.1 (k, v) (by simp)
      have hpqs : purePairs qs = true := by
        have := hp.1
        rw [purePairs_iff] at this ⊢
        exact fun q hq => this q (by simp [hq])
      have hlv : 1 ≤ (toksOf v).length := toksOf_len_pos hpv
      have hlq : 1 ≤ (objTailToks qs).length := objTailToks_len_pos qs
      simp only [List.length_cons, List.length_append] at hf
      obtain ⟨f, rfl⟩ : ∃ f, fuel = f + 1 := ⟨fuel - 1, by omega⟩
      obtain ⟨f', rfl⟩ : ∃ f', f = f' + 1 := ⟨f - 1, by omega⟩
      simp only [List.cons_append, List.append_assoc]
      have hmk : mkObj ((k, v) :: qs) = (k, v) :: qs := mkObj_nodup hp.2
      have hKV : RT v := hmem (k, v) (by simp)
      have hm := parseMember_succ f' k _ _ v
        (hKV hpv f' (objTailToks qs ++ rest) (by omega))
      have ho := parseObjTail_toks qs (fun q hq => hmem q (by simp [hq])) hpqs
        (f' + 1) rest (by omega)
      exact (parseVal_succ_obj_cons (f' + 1) k _ _ _ v qs hm ho).trans
        (by rw [hmk])

/-- A pure value serialized by `toksOf` parses back to itself under the
default fuel of `jsonParse`. -/
theorem jsonParse_toksOf {v : Js} (h : isPure v = true) :
    jsonParse (toksOf v) = some v := by
  have h1 := rt_val v h ((toksOf v).length + 1) [] (le_refl _)
  rw [List.append_nil] at h1
  simp [jsonParse, h1]

/-! ### The encode/decode boundary (claim C1) -/

/-- C1, counterexample: the absent value does not round-trip.  Its encoding
is `undefined`, stored as NULL, and decoding the stored column yields the
JSON `null`, not the absent value — so decode∘encode is not the identity on
absent values, contrary to the claim. -/
theorem decode_encode_absent_cex :
    decodeField (encodeField Js.undef) = some Js.null ∧
    decodeField (encodeField Js.undef) ≠ some Js.undef := by
  constructor
  · rfl
  · intro h
    rw [show decodeField (encodeField Js.undef) = some Js.null from rfl] at h
    exact Js.noConfusion (Option.some.inj h)

/-- C1 as amended: decoding the stored encoding is the identity on every
proper JSON value — nested sequences, mappings (with their necessarily
distinct keys), null, text, booleans and numbers — while an absent value is
stored as NULL and decodes to `null` instead of round-tripping. -/
theorem decode_encode_roundtrip_pure (v : Js) (h : isPure v = true) :
    decodeField (encodeField v) = some v := by
  have hu : v.isUndef = false := isPure_not_undef h
  rw [encodeField, jsonToks, if_neg (by simp [hu])]
  rw [decodeField]
  exact jsonParse_toksOf h

/-- C1 witness: the round trip instantiated at a concrete nested value
covering sequences, mappings, null, text, booleans and numbers. -/
theorem decode_encode_roundtrip_pure_witness :
    isPure sampleJson = true ∧
    decodeField (encodeField sampleJson) = some sampleJson := by
  have hpure : isPure sampleJson = true := by
    simp [sampleJson, isPure, pureList, purePairs, nodupKeys]
  exact ⟨hpure, decode_encode_roundtrip_pure sampleJson hpure⟩

/-! ### Schema creation (claim C5) -/

/-- C5, counterexample: a schema-creation failure that is not the
already-exists condition is also swallowed — `createSchema` still returns
normally (and merely logs the message), whereas the claim says every other
failure propagates to the caller of startup. -/
theorem createSchema_swallows_other_failures_cex :
    (createSchema ⟨false⟩ (some "disk failure")).2.2 = Except.ok () ∧
    (createSchema ⟨false⟩ (some "disk failure")).2.1 = some "disk failure" ∧
    SchemaErr.other "disk failure" ≠ SchemaErr.alreadyExists := by
  refine ⟨rfl, rfl, by simp⟩

/-- C5 as amended: schema creation is idempotent, and every schema-creation
failure — the already-exists conflict and any other — is swallowed (logged
only); no failure ever propagates to the caller of startup. -/
theorem createSchema_idempotent_swallows_all (db : SinkDb)
    (fault : Option String) :
    (createSchema db fault).2.2 = Except.ok () ∧
    (createSchema (createSchema db none).1 none).1 = (createSchema db none).1 ∧
    (db.hasTable = true →
      (createSchema db fault).2.1 = some SchemaErr.alreadyExists.message) := by
  rcases db with ⟨_ | _⟩ <;> rcases fault with _ | msg <;>
    simp [createSchema, createTable, SchemaErr.message]

/-- C5 witness: the amended statement instantiated at a store whose table
already exists. -/
theorem createSchema_idempotent_swallows_all_witness :
    (createSchema ⟨true⟩ (some "x")).2.2 = Except.ok () ∧
    (createSchema (createSchema ⟨true⟩ none).1 none).1 =
      (createSchema ⟨true⟩ none).1 ∧
    ((⟨true⟩ : SinkDb).hasTable = true →
      (createSchema ⟨true⟩ (some "x")).2.1 =
        some SchemaErr.alreadyExists.message) :=
  createSchema_idempotent_swallows_all ⟨true⟩ (some "x")

/-! ### Purge and single delete (claims C6 and C7) -/

/-- C6: the purge route deletes exactly the rows with id at or below the
threshold, leaves the rest in place (in order), answers 404 exactly when no
row was at or below the threshold and 200 otherwise. -/
theorem purge_removes_le (db : EmailTable) (k : Nat) :
    (apiEmailPurge db k).1.rows =
      db.rows.filter (fun r => !decide (r.id ≤ k)) ∧
    ((apiEmailPurge db k).2 = 200 ↔ ∃ r ∈ db.rows, r.id ≤ k) ∧
    ((apiEmailPurge db k).2 = 404 ↔ ∀ r ∈ db.rows, k < r.id) := by
  rcases hf : db.rows.filter (fun r => decide (r.id ≤ k)) with _ | ⟨r0, rest⟩
  · have hall : ∀ r ∈ db.rows, k < r.id := by
      intro r hr
      by_contra hlt
      have hmem : r ∈ db.rows.filter (fun r => decide (r.id ≤ k)) := by
        rw [List.mem_filter]
        exact ⟨hr, by simpa using Nat.le_of_not_lt hlt⟩
      rw [hf] at hmem
      simp at hmem
    have hsame : db.rows.filter (fun r => !decide (r.id ≤ k)) = db.rows := by
      rw [List.filter_eq_self]
      intro r hr
      simpa using Nat.not_le_of_lt (hall r hr)
    refine ⟨?_, ?_, ?_⟩
    · simp [apiEmailPurge, selectLe, hf, hsame]
    · simp only [apiEmailPurge, selectLe, hf]
      constructor
      · intro h; exact absurd h (by norm_num)
      · rintro ⟨r, hr, hle⟩
        exact absurd hle (Nat.not_le_of_lt (hall r hr))
    · simp only [apiEmailPurge, selectLe, hf]
      exact ⟨fun _ => hall, fun _ => trivial⟩
  · have hr0 : r0 ∈ db.rows ∧ r0.id ≤ k := by
      have : r0 ∈ db.rows.filter (fun r => decide (r.id ≤ k)) := by
        rw [hf]; exact List.mem_cons_self r0 rest
      rw [List.mem_filter] at this
      exact ⟨this.1, by simpa using this.2⟩
    refine ⟨?_, ?_, ?_⟩
    · simp [apiEmailPurge, selectLe, hf, deleteLe]
    · simp only [apiEmailPurge, selectLe, hf]
      exact ⟨fun _ => ⟨r0, hr0.1, hr0.2⟩, fun _ => trivial⟩
    · simp only [apiEmailPurge, selectLe, hf]
      constructor
      · intro h; exact absurd h (by norm_num)
      · intro hall
        exact absurd hr0.2 (Nat.not_le_of_lt (hall r0 hr0.1))

/-- C6 witness: purging the two-row table at threshold 1 removes exactly the
row with id 1 and answers 200. -/
theorem purge_removes_le_witness :
    (apiEmailPurge dbAB 1).1.rows =
      dbAB.rows.filter (fun r => !decide (r.id ≤ 1)) ∧
    ((apiEmailPurge dbAB 1).2 = 200 ↔ ∃ r ∈ dbAB.rows, r.id ≤ 1) ∧
    ((apiEmailPurge dbAB 1).2 = 404 ↔ ∀ r ∈ dbAB.rows, 1 < r.id) :=
  purge_removes_le dbAB 1

/-- C7: the delete route on an existing id answers 200 and removes exactly
the rows carrying that id, leaving every other row in place (in order); on a
missing id it answers 404 and leaves the store entirely unchanged. -/
theorem delete_removes_exactly (db : EmailTable) (i : Nat) :
    ((∃ r ∈ db.rows, r.id = i) →
      (apiEmailDelete db i).2 = 200 ∧
      (apiEmailDelete db i).1.rows = db.rows.filter (fun r => !(r.id == i))) ∧
    ((∀ r ∈ db.rows, r.id ≠ i) → apiEmailDelete db i = (db, 404)) := by
  constructor
  · rintro ⟨r, hr, hid⟩
    have hmem : r ∈ db.rows.filter (fun r => r.id == i) := by
      rw [List.mem_filter]
      exact ⟨hr, by simpa using hid⟩
    rcases hf : db.rows.filter (fun r => r.id == i) with _ | ⟨r0, rest⟩
    · rw [hf] at hmem; simp at hmem
    · exact ⟨by simp [apiEmailDelete, selectById, hf],
        by simp [apiEmailDelete, selectById, hf, deleteById]⟩
  · intro hall
    have hnil : db.rows.filter (fun r => r.id == i) = [] := by
      rw [List.filter_eq_nil_iff]
      intro r hr
      simpa using hall r hr
    simp [apiEmailDelete, selectById, hnil]

/-- C7 witness: deleting id 1 from the two-row table answers 200 and leaves
only the row with id 2; deleting the missing id 9 answers 404 and changes
nothing. -/
theorem delete_removes_exactly_witness :
    (∃ r ∈ dbAB.rows, r.id = 1) ∧
    ((apiEmailDelete dbAB 1).2 = 200 ∧
      (apiEmailDelete dbAB 1).1.rows =
        dbAB.rows.filter (fun r => !(r.id == 1))) ∧
    (∀ r ∈ dbAB.rows, r.id ≠ 9) ∧
    apiEmailDelete dbAB 9 = (dbAB, 404) :=
  ⟨by decide, (delete_removes_exactly dbAB 1).1 (by decide),
    by decide, (delete_removes_exactly dbAB 9).2 (by decide)⟩

/-! ### The data-phase completion handler (claims C2 and C10) -/

/-- An insert leaves a row under the assigned id in the store. -/
theorem insertEmail_has_row (db : EmailTable) (now : Nat) (m : MailObject)
    (envFrom envTo : Js) :
    ∃ r ∈ (insertEmail db now m envFrom envTo).1.rows, r.id = db.next_id := by
  exact ⟨_, List.mem_append_right _ (List.mem_singleton_self _), rfl⟩

/-- C2: whenever the completion handler acknowledges the session, the insert
event precedes the acknowledgment in its emission trace, and the store state
at acknowledgment time holds a row under the id assigned to this session. -/
theorem ack_after_insert (db : EmailTable) (now : Nat) (m : MailObject)
    (envFrom envTo : Js) (j : Nat)
    (hj : (handleEnd db now m envFrom envTo).2[j]? = some SinkEv.acked) :
    (∃ i < j, (handleEnd db now m envFrom envTo).2[i]? =
      some (SinkEv.inserted db.next_id)) ∧
    ∃ r ∈ (handleEnd db now m envFrom envTo).1.rows, r.id = db.next_id := by
  rcases hsel : selectById (insertEmail db now m envFrom envTo).1
      (insertEmail db now m envFrom envTo).2 with _ | ⟨r0, rest⟩ <;>
    simp only [handleEnd, hsel] at hj ⊢
  · rcases j with _ | j <;> simp at hj
  · rcases hdes : deserialize r0 with _ | d <;> simp only [hdes] at hj ⊢
    · rcases j with _ | j <;> simp at hj
    · rcases j with _ | _ | j
      · simp at hj
      · simp at hj
      · exact ⟨⟨0, by omega, rfl⟩, insertEmail_has_row db now m envFrom envTo⟩

/-- C2 witness: the all-absent message acknowledges at position 2 of the
trace, after the insert at position 0, with the row durably present. -/
theorem ack_after_insert_witness :
    (handleEnd EmailTable.init 0 mailUndef .undef .undef).2[2]? =
      some SinkEv.acked ∧
    ((∃ i < 2, (handleEnd EmailTable.init 0 mailUndef .undef .undef).2[i]? =
      some (SinkEv.inserted EmailTable.init.next_id)) ∧
    ∃ r ∈ (handleEnd EmailTable.init 0 mailUndef .undef .undef).1.rows,
      r.id = EmailTable.init.next_id) :=
  ⟨rfl, ack_after_insert EmailTable.init 0 mailUndef .undef .undef 2 rfl⟩

/-- C10: whatever record the completion handler publishes on the event bus
is exactly the record the single-record route returns for the newly assigned
id against the post-insert store, and the publication precedes the session's
acknowledgment in the trace. -/
theorem publish_matches_getById_before_ack (db : EmailTable) (now : Nat)
    (m : MailObject) (envFrom envTo : Js) (d : DecodedRow) (j : Nat)
    (hj : (handleEnd db now m envFrom envTo).2[j]? =
      some (SinkEv.published d)) :
    apiEmailById (handleEnd db now m envFrom envTo).1 db.next_id = some d ∧
    ∃ j', j < j' ∧
      (handleEnd db now m envFrom envTo).2[j']? = some SinkEv.acked := by
  have hid : (insertEmail db now m envFrom envTo).2 = db.next_id := rfl
  rcases hsel : selectById (insertEmail db now m envFrom envTo).1
      (insertEmail db now m envFrom envTo).2 with _ | ⟨r0, rest⟩ <;>
    simp only [handleEnd, hsel] at hj ⊢
  · rcases j with _ | j <;> simp at hj
  · rcases hdes : deserialize r0 with _ | d0 <;> simp only [hdes] at hj ⊢
    · rcases j with _ | j <;> simp at hj
    · rcases j with _ | _ | j
      · simp at hj
      · simp only [List.getElem?_cons_succ, List.getElem?_cons_zero,
          Option.some.injEq] at hj
        have hd : d0 = d := by
          cases hj
          rfl
        subst hd
        refine ⟨?_, 2, by omega, rfl⟩
        rw [hid] at hsel
        simp [apiEmailById, hsel, hdes]
      · rcases j with _ | j <;> simp at hj

/-! ### Id assignment across the store lifetime (claim C3) -/

/-- Membership in the assigned-id projection of an event list. -/
theorem mem_assignedIds {evs : List StoreEv} {i : Nat} :
    i ∈ assignedIds evs ↔ StoreEv.assigned i ∈ evs := by
  simp only [assignedIds, List.mem_filterMap]
  constructor
  · rintro ⟨e, he, hm⟩
    cases e with
    | assigned j =>
      simp only [Option.some.injEq] at hm
      exact hm ▸ he
    | removed j => simp at hm
  · intro h
    exact ⟨_, h, rfl⟩

/-- State change of the single-delete route: the id sequence is untouched
and the rows shrink to a sublist. -/
theorem apiEmailDelete_state (db : EmailTable) (i : Nat) :
    (apiEmailDelete db i).1.next_id = db.next_id ∧
    (apiEmailDelete db i).1.rows.Sublist db.rows := by
  rw [apiEmailDelete]
  cases hsel : selectById db i with
  | nil => exact ⟨rfl, List.Sublist.refl _⟩
  | cons r rs => exact ⟨rfl, List.filter_sublist _⟩

/-- State change of the purge route: the id sequence is untouched and the
rows shrink to a sublist. -/
theorem apiEmailPurge_state (db : EmailTable) (k : Nat) :
    (apiEmailPurge db k).1.next_id = db.next_id ∧
    (apiEmailPurge db k).1.rows.Sublist db.rows := by
  rw [apiEmailPurge]
  cases hsel : selectLe db k with
  | nil => exact ⟨rfl, List.Sublist.refl _⟩
  | cons r rs => exact ⟨rfl, List.filter_sublist _⟩

/-- Appending one strictly larger element keeps a chain strictly
increasing. -/
theorem chain'_lt_append_singleton {l : List Nat} {a : Nat}
    (hc : l.Chain' (· < ·)) (hb : ∀ x ∈ l, x < a) :
    (l ++ [a]).Chain' (· < ·) := by
  refine List.Chain'.append hc (by simp) ?_
  intro x hx y hy
  have hx' := List.mem_of_mem_getLast? hx
  have hy' : a = y := by simpa using hy
  subst hy'
  exact hb x hx'

/-- One store operation preserves the store invariant, never decreases the
id sequence, assigns only fresh ids, removes only already-assigned ids, and
assigns in strictly increasing order. -/
theorem applyOp_facts (db : EmailTable) (op : StoreOp) (hinv : StoreInv db) :
    StoreInv (applyOp db op).1 ∧
    db.next_id ≤ (applyOp db op).1.next_id ∧
    (∀ i, StoreEv.assigned i ∈ (applyOp db op).2 →
      db.next_id ≤ i ∧ i < (applyOp db op).1.next_id) ∧
    (∀ i, StoreEv.removed i ∈ (applyOp db op).2 → i < db.next_id) ∧
    (assignedIds (applyOp db op).2).Chain' (· < ·) := by
  cases op with
  | insertOp now m envFrom envTo =>
    have h2nd : (applyOp db (StoreOp.insertOp now m envFrom envTo)).2 =
        [StoreEv.assigned db.next_id] := rfl
    have hnext : (applyOp db (StoreOp.insertOp now m envFrom envTo)).1.next_id =
        db.next_id + 1 := rfl
    refine ⟨⟨?_, ?_⟩, ?_, ?_, ?_, ?_⟩
    · show ((db.rows ++ [_]).map _).Chain' (· < ·)
      rw [List.map_append]
      refine chain'_lt_append_singleton hinv.1 ?_
      intro x hx
      obtain ⟨r, hr, hrx⟩ := List.mem_map.1 hx
      have hb := hinv.2 r hr
      have hx2 : r.id = x := hrx
      show x < db.next_id
      omega
    · intro r hr
      rw [hnext]
      have hr' : r ∈ db.rows ++ [_] := hr
      rcases List.mem_append.1 hr' with h | h
      · exact lt_trans (hinv.2 r h) (Nat.lt_succ_self _)
      · simp only [List.mem_singleton] at h
        subst h
        exact Nat.lt_succ_self _
    · rw [hnext]
      omega
    · intro i hi
      rw [h2nd] at hi
      rw [hnext]
      simp only [List.mem_singleton, StoreEv.assigned.injEq] at hi
      subst hi
      exact ⟨le_refl _, Nat.lt_succ_self _⟩
    · intro i hi
      rw [h2nd] at hi
      simp at hi
    · rw [h2nd]
      simp [assignedIds]
  | deleteOp i =>
    obtain ⟨hn, hs⟩ := apiEmailDelete_state db i
    have hap : (applyOp db (StoreOp.deleteOp i)).1 =
        (apiEmailDelete db i).1 := rfl
    have hev2 : (applyOp db (StoreOp.deleteOp i)).2 =
        (selectById db i).map (fun r => StoreEv.removed r.id) := rfl
    refine ⟨⟨?_, ?_⟩, ?_, ?_, ?_, ?_⟩
    · rw [hap]
      exact hinv.1.sublist (List.Sublist.map _ hs)
    · intro r hr
      rw [hap] at hr ⊢
      rw [hn]
      exact hinv.2 r (hs.subset hr)
    · rw [hap]
      exact le_of_eq hn.symm
    · intro j hj
      rw [hev2] at hj
      obtain ⟨r, -, heq⟩ := List.mem_map.1 hj
      exact StoreEv.noConfusion heq
    · intro j hj
      rw [hev2] at hj
      obtain ⟨r, hr, heq⟩ := List.mem_map.1 hj
      injection heq with h
      rw [← h]
      exact hinv.2 r (List.mem_filter.1 hr).1
    · rw [hev2]
      have hnil : assignedIds
          ((selectById db i).map (fun r => StoreEv.removed r.id)) = [] := by
        rw [assignedIds, List.filterMap_map]
        simp [List.filterMap_eq_nil_iff, Function.comp]
      rw [hnil]
      exact List.chain'_nil
  | purgeOp k =>
    obtain ⟨hn, hs⟩ := apiEmailPurge_state db k
    have hap : (applyOp db (StoreOp.purgeOp k)).1 =
        (apiEmailPurge db k).1 := rfl
    have hev2 : (applyOp db (StoreOp.purgeOp k)).2 =
        (selectLe db k).map (fun r => StoreEv.removed r.id) := rfl
    refine ⟨⟨?_, ?_⟩, ?_, ?_, ?_, ?_⟩
    · rw [hap]
      exact hinv.1.sublist (List.Sublist.map _ hs)
    · intro r hr
      rw [hap] at hr ⊢
      rw [hn]
      exact hinv.2 r (hs.subset hr)
    · rw [hap]
      exact le_of_eq hn.symm
    · intro j hj
      rw [hev2] at hj
      obtain ⟨r, -, heq⟩ := List.mem_map.1 hj
      exact StoreEv.noConfusion heq
    · intro j hj
      rw [hev2] at hj
      obtain ⟨r, hr, heq⟩ := List.mem_map.1 hj
      injection heq with h
      rw [← h]
      exact hinv.2 r (List.mem_filter.1 hr).1
    · rw [hev2]
      have hnil : assignedIds
          ((selectLe db k).map (fun r => StoreEv.removed r.id)) = [] := by
        rw [assignedIds, List.filterMap_map]
        simp [List.filterMap_eq_nil_iff, Function.comp]
      rw [hnil]
      exact List.chain'_nil

/-- A store lifetime preserves the invariant, never decreases the id
sequence, assigns only fresh ids in strictly increasing order, and every
event id stays below the final id sequence. -/
theorem runOps_facts : ∀ (ops : List StoreOp) (db : EmailTable),
    StoreInv db →
    StoreInv (runOps db ops).1 ∧
    db.next_id ≤ (runOps db ops).1.next_id ∧
    (∀ i, StoreEv.assigned i ∈ (runOps db ops).2 →
      db.next_id ≤ i ∧ i < (runOps db ops).1.next_id) ∧
    (∀ i, StoreEv.removed i ∈ (runOps db ops).2 →
      i < (runOps db ops).1.next_id) ∧
    (assignedIds (runOps db ops).2).Chain' (· < ·) := by
  intro ops
  induction ops with
  | nil =>
    intro db hinv
    exact ⟨hinv, le_refl _, by simp [runOps], by simp [runOps],
      by simp [runOps, assignedIds]⟩
  | cons op ops ih =>
    intro db hinv
    obtain ⟨h1, h2, h3, h4, h5⟩ := applyOp_facts db op hinv
    obtain ⟨g1, g2, g3, g4, g5⟩ := ih (applyOp db op).1 h1
    have hev : (runOps db (op :: ops)).2 =
        (applyOp db op).2 ++ (runOps (applyOp db op).1 ops).2 := rfl
    have hdb : (runOps db (op :: ops)).1 =
        (runOps (applyOp db op).1 ops).1 := rfl
    rw [hev, hdb]
    refine ⟨g1, le_trans h2 g2, ?_, ?_, ?_⟩
    · intro i hi
      rcases List.mem_append.1 hi with h | h
      · exact ⟨(h3 i h).1, lt_of_lt_of_le (h3 i h).2 g2⟩
      · exact ⟨le_trans h2 (g3 i h).1, (g3 i h).2⟩
    · intro i hi
      rcases List.mem_append.1 hi with h | h
      · exact lt_of_lt_of_le (h4 i h) (le_trans h2 g2)
      · exact g4 i h
    · rw [assignedIds, List.filterMap_append]
      refine List.Chain'.append h5 g5 ?_
      intro x hx y hy
      have hx' : StoreEv.assigned x ∈ (applyOp db op).2 :=
        mem_assignedIds.1 (List.mem_of_mem_getLast? hx)
      have hy' : StoreEv.assigned y ∈ (runOps (applyOp db op).1 ops).2 :=
        mem_assignedIds.1 (List.mem_of_mem_head? hy)
      exact lt_of_lt_of_le (h3 x hx').2 (g3 y hy').1

/-- Along a store lifetime, every id removed at some position is strictly
below every id assigned at a later position: deletion never frees an id for
reassignment. -/
theorem runOps_no_reuse : ∀ (ops : List StoreOp) (db : EmailTable),
    StoreInv db →
    ∀ (p q i j : Nat), p < q →
      (runOps db ops).2[p]? = some (StoreEv.removed i) →
      (runOps db ops).2[q]? = some (StoreEv.assigned j) → i < j := by
  intro ops
  induction ops with
  | nil =>
    intro db _ p q i j _ hp _
    simp [runOps] at hp
  | cons op ops ih =>
    intro db hinv p q i j hpq hp hq
    obtain ⟨h1, h2, h3, h4, h5⟩ := applyOp_facts db op hinv
    obtain ⟨g1, g2, g3, g4, g5⟩ := runOps_facts ops (applyOp db op).1 h1
    have hev : (runOps db (op :: ops)).2 =
        (applyOp db op).2 ++ (runOps (applyOp db op).1 ops).2 := rfl
    rw [hev] at hp hq
    by_cases hqlt : q < (applyOp db op).2.length
    · rw [List.getElem?_append_left hqlt] at hq
      rw [List.getElem?_append_left (lt_trans hpq hqlt)] at hp
      have hqmem := List.getElem?_mem hq
      have hpmem := List.getElem?_mem hp
      exact lt_of_lt_of_le (h4 i hpmem) (h3 j hqmem).1
    · push_neg at hqlt
      rw [List.getElem?_append_right hqlt] at hq
      have hqmem := List.getElem?_mem hq
      by_cases hplt : p < (applyOp db op).2.length
      · rw [List.getElem?_append_left hplt] at hp
        have hpmem := List.getElem?_mem hp
        exact lt_of_lt_of_le (h4 i hpmem) (le_trans h2 (g3 j hqmem).1)
      · push_neg at hplt
        rw [List.getElem?_append_right hplt] at hp
        exact ih (applyOp db op).1 h1 (p - (applyOp db op).2.length)
          (q - (applyOp db op).2.length) i j (by omega) hp hq

/-- C3: over any lifetime of inserts, deletes and purges starting from the
fresh store, the assigned ids are strictly increasing in insertion order
(hence unique), and an id removed by a delete or purge is never assigned to
a later insert. -/
theorem insert_ids_strict_mono (ops : List StoreOp) :
    (assignedIds (runOps EmailTable.init ops).2).Chain' (· < ·) ∧
    (assignedIds (runOps EmailTable.init ops).2).Nodup ∧
    (∀ (p q i j : Nat), p < q →
      (runOps EmailTable.init ops).2[p]? = some (StoreEv.removed i) →
      (runOps EmailTable.init ops).2[q]? = some (StoreEv.assigned j) →
      i ≠ j) := by
  have hinv : StoreInv EmailTable.init :=
    ⟨by simp [EmailTable.init], by simp [EmailTable.init]⟩
  have hchain := (runOps_facts ops EmailTable.init hinv).2.2.2.2
  refine ⟨hchain, ?_, ?_⟩
  · have hpw := List.chain'_iff_pairwise.1 hchain
    exact hpw.imp Nat.ne_of_lt
  · intro p q i j hpq hp hq
    exact (runOps_no_reuse ops EmailTable.init hinv p q i j hpq hp hq).ne

/-- C3 witness: insert, delete the assigned id 1, insert again — the
assigned ids 1 and 2 are strictly increasing and the removed id 1 is not
reassigned. -/
theorem insert_ids_strict_mono_witness :
    (runOps EmailTable.init opsW).2[1]? = some (StoreEv.removed 1) ∧
    (runOps EmailTable.init opsW).2[2]? = some (StoreEv.assigned 2) ∧
    (assignedIds (runOps EmailTable.init opsW).2).Chain' (· < ·) ∧
    (assignedIds (runOps EmailTable.init opsW).2).Nodup ∧
    (1 : Nat) ≠ 2 :=
  ⟨rfl, rfl, (insert_ids_strict_mono opsW).1,
    (insert_ids_strict_mono opsW).2.1,
    (insert_ids_strict_mono opsW).2.2 1 2 1 2 (by omega) rfl rfl⟩

/-! ### The event bus (claim C8) -/

/-- One bus event applied after a history. -/
theorem regsAfter_concat (l : List BusOp) (op : BusOp) :
    regsAfter (l ++ [op]) = busStep (regsAfter l) op := by
  rw [regsAfter, regsAfter, List.foldl_append]
  rfl

/-- A subscriber appears in the listener list at most as often as it
subscribes. -/
theorem regsAfter_count (s : Nat) : ∀ ops : List BusOp,
    (regsAfter ops).count s ≤ ops.countP (isSubOf s) := by
  intro ops
  induction ops using List.reverseRecOn with
  | nil => simp [regsAfter]
  | append_singleton l op ih =>
    have hcp : (l ++ [op]).countP (isSubOf s) =
        l.countP (isSubOf s) + [op].countP (isSubOf s) :=
      List.countP_append _ _ _
    rw [regsAfter_concat, hcp]
    cases op with
    | subscribe t =>
      show (regsAfter l ++ [t]).count s ≤ _
      rw [List.count_append]
      have h1 : ([t] : List Nat).count s =
          [BusOp.subscribe t].countP (isSubOf s) := by
        by_cases hts : t = s
        · subst hts
          simp [List.count_singleton, List.countP_cons, isSubOf]
        · simp [List.count_singleton, List.countP_cons, isSubOf, hts]
      omega
    | unsubscribe t =>
      show (((regsAfter l).reverse.erase t).reverse).count s ≤ _
      have h2 : (((regsAfter l).reverse.erase t).reverse).count s ≤
          (regsAfter l).count s := by
        rw [List.count_reverse]
        calc ((regsAfter l).reverse.erase t).count s
            ≤ (regsAfter l).reverse.count s :=
              (List.erase_sublist t _).count_le s
          _ = (regsAfter l).count s := List.count_reverse s _
      have h3 := Nat.zero_le ([BusOp.unsubscribe t].countP (isSubOf s))
      omega
    | publish r =>
      show (regsAfter l).count s ≤ _
      have h3 := Nat.zero_le ([BusOp.publish r].countP (isSubOf s))
      omega

/-- Appending an event that neither subscribes nor unsubscribes the given
subscriber does not change whether it has an open subscription. -/
theorem subOpen_concat {l : List BusOp} {op : BusOp} {s : Nat}
    (hsub : op ≠ BusOp.subscribe s) (huns : op ≠ BusOp.unsubscribe s) :
    (∃ j : Nat, (l ++ [op])[j]? = some (BusOp.subscribe s) ∧
      ∀ k : Nat, j < k → (l ++ [op])[k]? ≠ some (BusOp.unsubscribe s)) ↔
    (∃ j : Nat, l[j]? = some (BusOp.subscribe s) ∧
      ∀ k : Nat, j < k → l[k]? ≠ some (BusOp.unsubscribe s)) := by
  constructor
  · rintro ⟨j, hj, hk⟩
    have hjlt : j < l.length := by
      by_contra hge
      push_neg at hge
      rw [List.getElem?_append_right hge] at hj
      rcases Nat.eq_zero_or_pos (j - l.length) with h0 | h0
      · rw [h0] at hj
        exact hsub (Option.some.inj hj)
      · rw [List.getElem?_eq_none
          (by simp only [List.length_cons, List.length_nil]; omega)] at hj
        cases hj
    refine ⟨j, by rw [List.getElem?_append_left hjlt] at hj; exact hj, ?_⟩
    intro k hk'
    by_cases hkl : k < l.length
    · have h := hk k hk'
      rw [List.getElem?_append_left hkl] at h
      exact h
    · push_neg at hkl
      rw [List.getElem?_eq_none hkl]
      simp
  · rintro ⟨j, hj, hk⟩
    have hjlt : j < l.length := by
      by_contra hge
      push_neg at hge
      rw [List.getElem?_eq_none hge] at hj
      cases hj
    refine ⟨j, by rw [List.getElem?_append_left hjlt]; exact hj, ?_⟩
    intro k hk'
    by_cases hkl : k < l.length
    · rw [List.getElem?_append_left hkl]
      exact hk k hk'
    · push_neg at hkl
      rw [List.getElem?_append_right hkl]
      rcases Nat.eq_zero_or_pos (k - l.length) with h0 | h0
      · rw [h0]
        intro hcon
        exact huns (Option.some.inj hcon)
      · rw [List.getElem?_eq_none
          (by simp only [List.length_cons, List.length_nil]; omega)]
        simp

/-- A subscriber is registered after a history exactly when some subscribe
event of the history is never followed by an unsubscribe event for it —
provided it subscribes at most once, as each live-view request does. -/
theorem mem_regsAfter_iff {s : Nat} : ∀ {ops : List BusOp},
    ops.countP (isSubOf s) ≤ 1 →
    (s ∈ regsAfter ops ↔
      ∃ j : Nat, ops[j]? = some (BusOp.subscribe s) ∧
        ∀ k : Nat, j < k → ops[k]? ≠ some (BusOp.unsubscribe s)) := by
  intro ops
  induction ops using List.reverseRecOn with
  | nil =>
    intro _
    simp [regsAfter]
  | append_singleton l op ih =>
    intro hcnt
    have hcnt' : l.countP (isSubOf s) ≤ 1 := by
      have h0 : (l ++ [op]).countP (isSubOf s) =
          l.countP (isSubOf s) + [op].countP (isSubOf s) :=
        List.countP_append _ _ _
      omega
    rw [regsAfter_concat]
    cases op with
    | publish r =>
      show s ∈ regsAfter l ↔ _
      rw [ih hcnt']
      exact (@subOpen_concat l (BusOp.publish r) s (by simp) (by simp)).symm
    | subscribe t =>
      by_cases hts : s = t
      · subst hts
        show s ∈ regsAfter l ++ [s] ↔ _
        constructor
        · intro _
          refine ⟨l.length, ?_, ?_⟩
          · rw [List.getElem?_append_right (le_refl _), Nat.sub_self]
            rfl
          · intro k hk
            have hlen : (l ++ [BusOp.subscribe s]).length ≤ k := by
              simp only [List.length_append, List.length_cons,
                List.length_nil]
              omega
            rw [List.getElem?_eq_none hlen]
            simp
        · intro _
          simp
      · show s ∈ regsAfter l ++ [t] ↔ _
        have h1 : s ∈ regsAfter l ++ [t] ↔ s ∈ regsAfter l := by
          simp [hts]
        rw [h1, ih hcnt']
        exact (@subOpen_concat l (BusOp.subscribe t) s
          (by simp [Ne.symm hts]) (by simp)).symm
    | unsubscribe t =>
      by_cases hts : s = t
      · subst hts
        show s ∈ ((regsAfter l).reverse.erase s).reverse ↔ _
        have hcd : (regsAfter l).count s ≤ 1 :=
          le_trans (regsAfter_count s l) hcnt'
        have hnot : s ∉ ((regsAfter l).reverse.erase s).reverse := by
          intro hmem
          rw [List.mem_reverse] at hmem
          have h1 : (regsAfter l).reverse.count s ≤ 1 := by
            rw [List.count_reverse]
            exact hcd
          have h2 := List.count_erase_self s (regsAfter l).reverse
          have h3 : 0 < ((regsAfter l).reverse.erase s).count s :=
            List.count_pos_iff.2 hmem
          omega
        constructor
        · intro h
          exact absurd h hnot
        · rintro ⟨j, hj, hk⟩
          have hjlt : j < l.length := by
            by_contra hge
            push_neg at hge
            rw [List.getElem?_append_right hge] at hj
            rcases Nat.eq_zero_or_pos (j - l.length) with h0 | h0
            · rw [h0] at hj
              exact BusOp.noConfusion (Option.some.inj hj)
            · have hlen : ([BusOp.unsubscribe s] : List BusOp).length ≤
                  j - l.length := by
                simp only [List.length_cons, List.length_nil]
                omega
              rw [List.getElem?_eq_none hlen] at hj
              cases hj
          have h := hk l.length hjlt
          rw [List.getElem?_append_right (le_refl _), Nat.sub_self] at h
          exact absurd rfl h
      · show s ∈ ((regsAfter l).reverse.erase t).reverse ↔ _
        have hmem : s ∈ ((regsAfter l).reverse.erase t).reverse ↔
            s ∈ regsAfter l := by
          rw [List.mem_reverse, List.mem_erase_of_ne hts, List.mem_reverse]
        rw [hmem, ih hcnt']
        exact (@subOpen_concat l (BusOp.unsubscribe t) s (by simp)
          (by simp [Ne.symm hts])).symm

/-- The listener list after a history is a subsequence of its subscription
sequence: delivery order is registration order. -/
theorem regsAfter_sublist_subsOf : ∀ ops : List BusOp,
    (regsAfter ops).Sublist (subsOf ops) := by
  intro ops
  induction ops using List.reverseRecOn with
  | nil => simp [regsAfter, subsOf]
  | append_singleton l op ih =>
    rw [regsAfter_concat]
    cases op with
    | subscribe t =>
      have hsubs : subsOf (l ++ [BusOp.subscribe t]) = subsOf l ++ [t] := by
        simp [subsOf, List.filterMap_append]
      rw [hsubs]
      exact ih.append (List.Sublist.refl [t])
    | unsubscribe t =>
      have hsubs : subsOf (l ++ [BusOp.unsubscribe t]) = subsOf l := by
        simp [subsOf, List.filterMap_append]
      rw [hsubs]
      have h1 : ((regsAfter l).reverse.erase t).Sublist (regsAfter l).reverse :=
        List.erase_sublist t _
      have h2 := h1.reverse
      rw [List.reverse_reverse] at h2
      exact h2.trans ih
    | publish r =>
      have hsubs : subsOf (l ++ [BusOp.publish r]) = subsOf l := by
        simp [subsOf, List.filterMap_append]
      rw [hsubs]
      exact ih

/-- C8: provided a subscriber subscribes at most once (each live-view
request registers one fresh listener), it is delivered exactly the
publications occurring at a moment when its subscribe has happened and its
unsubscribe has not — never one from before its subscribe or after its
unsubscribe — and the delivery list of every publication respects
registration order. -/
theorem bus_delivery_characterization (ops : List BusOp) (s i : Nat)
    (hcnt : ops.countP (isSubOf s) ≤ 1) :
    (s ∈ deliveredAt ops i ↔
      ((∃ r, ops[i]? = some (BusOp.publish r)) ∧
        ∃ j : Nat, j < i ∧ ops[j]? = some (BusOp.subscribe s) ∧
          ∀ k : Nat, j < k → k < i → ops[k]? ≠ some (BusOp.unsubscribe s))) ∧
    (deliveredAt ops i).Sublist (subsOf (ops.take i)) := by
  have hcnt' : (ops.take i).countP (isSubOf s) ≤ 1 :=
    le_trans ((List.take_sublist i ops).countP_le (isSubOf s)) hcnt
  have hchar := mem_regsAfter_iff hcnt'
  constructor
  · rw [deliveredAt]
    cases hop : ops[i]? with
    | none => simp [hop]
    | some op =>
      cases op with
      | publish r =>
        show s ∈ regsAt ops i ↔ _
        rw [regsAt, hchar]
        constructor
        · rintro ⟨j, hj, hk⟩
          have hjlt : j < i := by
            by_contra hge
            push_neg at hge
            rw [List.getElem?_take] at hj
            rw [if_neg (by omega)] at hj
            cases hj
          refine ⟨⟨r, rfl⟩, j, hjlt, ?_, ?_⟩
          · rw [List.getElem?_take, if_pos hjlt] at hj
            exact hj
          · intro k hjk hki
            have h := hk k hjk
            rw [List.getElem?_take, if_pos hki] at h
            exact h
        · rintro ⟨-, j, hjlt, hj, hk⟩
          refine ⟨j, ?_, ?_⟩
          · rw [List.getElem?_take, if_pos hjlt]
            exact hj
          · intro k hjk
            rw [List.getElem?_take]
            by_cases hki : k < i
            · rw [if_pos hki]
              exact hk k hjk hki
            · rw [if_neg hki]
              simp
      | subscribe t =>
        simp [hop]
      | unsubscribe t =>
        simp [hop]
  · rw [deliveredAt]
    cases hop : ops[i]? with
    | none => simp
    | some op =>
      cases op with
      | publish r => exact regsAfter_sublist_subsOf (ops.take i)
      | subscribe t => simp
      | unsubscribe t => simp

/-- C8 witness: in the history subscribe 7, publish, unsubscribe 7, publish,
the characterization instantiated at the first publication. -/
theorem bus_delivery_characterization_witness :
    opsB.countP (isSubOf 7) ≤ 1 ∧
    ((7 ∈ deliveredAt opsB 1 ↔
      ((∃ r, opsB[1]? = some (BusOp.publish r)) ∧
        ∃ j : Nat, j < 1 ∧ opsB[j]? = some (BusOp.subscribe 7) ∧
          ∀ k : Nat, j < k → k < 1 → opsB[k]? ≠ some (BusOp.unsubscribe 7))) ∧
    (deliveredAt opsB 1).Sublist (subsOf (opsB.take 1))) :=
  ⟨by decide, bus_delivery_characterization opsB 7 1 (by decide)⟩

/-! ### Listing and streaming (claims C4 and C9) -/

/-- Decoding preserves the primary key. -/
theorem deserialize_id {r : StoredRow} {d : DecodedRow}
    (h : deserialize r = some d) : d.id = r.id := by
  simp only [deserialize, Option.bind_eq_some, Option.some.injEq] at h
  obtain ⟨a1, -, a2, -, a3, -, a4, -, a5, -, a6, -, a7, -, a8, -, h9⟩ := h
  rw [← h9]

/-- When every row of a list decodes, decoding the whole list succeeds and
relates the rows to their decoded forms pointwise, in order. -/
theorem deserializeAll_some {rs : List StoredRow}
    (h : ∀ r ∈ rs, (deserialize r).isSome) :
    ∃ ds, deserializeAll rs = some ds ∧
      List.Forall₂ (fun r d => deserialize r = some d) rs ds := by
  induction rs with
  | nil => exact ⟨[], rfl, List.Forall₂.nil⟩
  | cons r rs ih =>
    have hr := h r (by simp)
    rw [Option.isSome_iff_exists] at hr
    obtain ⟨d, hd⟩ := hr
    obtain ⟨ds, hds, hfa⟩ := ih (fun x hx => h x (by simp [hx]))
    exact ⟨d :: ds, by simp [deserializeAll, hd, hds], List.Forall₂.cons hd hfa⟩

/-- Pointwise decoding preserves the id sequence. -/
theorem forall₂_deserialize_map_id {rs : List StoredRow}
    {ds : List DecodedRow}
    (h : List.Forall₂ (fun r d => deserialize r = some d) rs ds) :
    ds.map (fun d => d.id) = rs.map (fun r => r.id) := by
  induction h with
  | nil => rfl
  | cons h1 _ ih => simp [deserialize_id h1, ih]

/-- C9: the listing route answers with all stored records, pointwise decoded
in store order, under the same ids, and that order is ascending id
(insertion order). -/
theorem listing_ordered_decoded (db : EmailTable) (hinv : StoreInv db)
    (hdec : ∀ r ∈ db.rows, (deserialize r).isSome) :
    ∃ L, apiEmail db = some L ∧
      List.Forall₂ (fun r d => deserialize r = some d) db.rows L ∧
      L.map (fun d => d.id) = db.rows.map (fun r => r.id) ∧
      (L.map (fun d => d.id)).Chain' (· < ·) := by
  obtain ⟨L, hL, hfa⟩ := deserializeAll_some hdec
  have hmap := forall₂_deserialize_map_id hfa
  exact ⟨L, hL, hfa, hmap, by rw [hmap]; exact hinv.1⟩

/-- C9 witness: the listing of the two-row table, ids ascending. -/
theorem listing_ordered_decoded_witness :
    StoreInv dbAB ∧ (∀ r ∈ dbAB.rows, (deserialize r).isSome) ∧
    ∃ L, apiEmail dbAB = some L ∧
      List.Forall₂ (fun r d => deserialize r = some d) dbAB.rows L ∧
      L.map (fun d => d.id) = dbAB.rows.map (fun r => r.id) ∧
      (L.map (fun d => d.id)).Chain' (· < ·) := by
  have h1 : StoreInv dbAB := by
    constructor
    · simp [dbAB, rowA, rowB]
    · decide
  have h2 : ∀ r ∈ dbAB.rows, (deserialize r).isSome := by decide
  exact ⟨h1, h2, listing_ordered_decoded dbAB h1 h2⟩

/-- C4, counterexample: the wire output of the stream route is not the wire
output of the decoded listing — at a store holding one row whose `text`
column is the encoding of the string `hi`, the listing serializes the
decoded string while the stream serializes the still-encoded column text. -/
theorem stream_vs_listing_cex :
    apiEmailWire dbA ≠ some (apiEmailStreamWire dbA) := by
  intro h
  have h1 : (apiEmailWire dbA).map wireTexts =
      (some (apiEmailStreamWire dbA)).map wireTexts := by rw [h]
  have h2 : (apiEmailWire dbA).map wireTexts =
      some [some (Js.str "hi")] := rfl
  have h3 : (some (apiEmailStreamWire dbA)).map wireTexts =
      some [some (Js.str "\"hi\"")] := rfl
  rw [h2, h3] at h1
  simp at h1

/-- C4 as amended: the stream route emits the same records as the listing
route, in the same order and under the same ids, but with their opaque
fields still encoded — decoding each streamed record pointwise yields
exactly the `/api/email` sequence. -/
theorem stream_matches_listing_undecoded (db : EmailTable)
    (hdec : ∀ r ∈ db.rows, (deserialize r).isSome) :
    ∃ L, apiEmail db = some L ∧
      List.Forall₂ (fun r d => deserialize r = some d) (apiEmailStream db) L ∧
      (apiEmailStream db).map (fun r => r.id) = L.map (fun d => d.id) := by
  obtain ⟨L, hL, hfa⟩ := deserializeAll_some hdec
  exact ⟨L, hL, hfa, (forall₂_deserialize_map_id hfa).symm⟩

/-- C4 witness: the amended statement instantiated at the two-row table. -/
theorem stream_matches_listing_undecoded_witness :
    (∀ r ∈ dbAB.rows, (deserialize r).isSome) ∧
    ∃ L, apiEmail dbAB = some L ∧
      List.Forall₂ (fun r d => deserialize r = some d)
        (apiEmailStream dbAB) L ∧
      (apiEmailStream dbAB).map (fun r => r.id) = L.map (fun d => d.id) :=
  ⟨by decide, stream_matches_listing_undecoded dbAB (by decide)⟩

/-- C10 witness: for the all-absent message, the record published at
position 1 equals the single-record route's answer for the new id, and the
acknowledgment follows at position 2. -/
theorem publish_matches_getById_before_ack_witness :
    (handleEnd EmailTable.init 0 mailUndef .undef .undef).2[1]? =
      some (SinkEv.published rowUndefDecoded) ∧
    (apiEmailById (handleEnd EmailTable.init 0 mailUndef .undef .undef).1
      EmailTable.init.next_id = some rowUndefDecoded ∧
    ∃ j', 1 < j' ∧
      (handleEnd EmailTable.init 0 mailUndef .undef .undef).2[j']? =
        some SinkEv.acked) :=
  ⟨rfl, publish_matches_getById_before_ack EmailTable.init 0 mailUndef
    .undef .undef rowUndefDecoded 1 rfl⟩

end RestSmtpSink
